import Mathlib

/-!
Verification development for the redcaps downloader pipeline.

Shallow embedding of the pure logic of:
* `redcaps/downloaders/id_downloader.py` (recursive time-window harvesting),
* `redcaps/downloaders/info_downloader.py` (URL normalization, Imgur album
  resolution, caption sanitization),
* `redcaps/filter.py` (filter stages and `_remove_images_and_annotations`),
* `redcaps/merge.py` (merging of annotation files),
* `redcaps/validate.py` (read-only validation).

Python strings are embedded as `List Char` where character-level scanning
matters, machine integers as `Int`/`Nat`, floats as `ℚ`, JSON records as
structures, and Python `dict` as an association list with first-insertion
key order and last-write value semantics (the behaviour of Python 3.7+
dicts).  File-system and network side effects are represented by explicit
parameters (existence predicates, detector outputs, fetched responses).

Several character-scanning functions consume at least one character per
step; they are written with an explicit fuel argument (instantiated with
the input length by their wrappers) so that they are structurally
recursive and reduce definitionally on concrete inputs.
-/

namespace Redcaps

/-! ### Python string primitives -/

/-- Does `l` start with `pat`? (Python `str.startswith`, used to scan.) -/
def pyStartsWith : List Char → List Char → Bool
  | [], _ => true
  | _ :: _, [] => false
  | p :: ps, c :: cs => p = c && pyStartsWith ps cs

/-- Python substring test `pat in s`. -/
def pyContains (pat : List Char) : List Char → Bool
  | [] => pyStartsWith pat []
  | c :: cs => pyStartsWith pat (c :: cs) || pyContains pat cs

/-- Fueled worker for `pyReplace`; each step consumes at least one
character of the input, so fuel equal to the input length suffices. -/
def pyReplaceF (old new : List Char) : Nat → List Char → List Char
  | _, [] => []
  | 0, l => l
  | fuel + 1, c :: cs =>
    if pyStartsWith old (c :: cs) then
      new ++ pyReplaceF old new fuel (cs.drop (old.length - 1))
    else c :: pyReplaceF old new fuel cs

/-- Python `s.replace(old, new)` for nonempty `old`: replace all
non-overlapping occurrences, scanning left to right and continuing after
each replaced occurrence. -/
def pyReplace (old new l : List Char) : List Char :=
  pyReplaceF old new l.length l

/-- Python `url.split("/")[-1]`: the part after the last slash. -/
def lastSlashComponent (l : List Char) : List Char :=
  (l.reverse.takeWhile (fun c => c ≠ '/')).reverse

/-! ### `RedditInfoDownloader._fix_image_url`, pure prefix (lines 120-138)

The method either returns a normalized URL directly (direct-link and plain
post URLs) or falls through to the Imgur album API call with the album id
`image_url.split("/")[-1]`.  The two outcomes are separated here; the
album branch is completed by `fixAlbumUrl` below. -/

inductive FixBranch
  | ret (url : List Char)
  | albumBranch (album_id : List Char)
deriving Repr, DecidableEq

/-- Branch structure of `_fix_image_url`:
1. URLs containing `i.imgur.com` are returned unchanged;
2. otherwise `m.imgur.com` is rewritten to `imgur.com`, and if the result
   has no `/a/` and no `gallery` substring it is a plain post URL:
   `imgur` becomes `i.imgur`, every `.jpg` occurrence is removed, and one
   `.jpg` is appended;
3. otherwise the album id is the last slash-component of the URL. -/
def fixImageUrlBranch (image_url : List Char) : FixBranch :=
  if pyContains "i.imgur.com".toList image_url then .ret image_url
  else
    let u := pyReplace "m.imgur.com".toList "imgur.com".toList image_url
    if ¬ (pyContains "/a/".toList u = true) ∧ ¬ (pyContains "gallery".toList u = true) then
      .ret (pyReplace ".jpg".toList [] (pyReplace "imgur".toList "i.imgur".toList u) ++ ".jpg".toList)
    else
      .albumBranch (lastSlashComponent u)

/-- String-level wrapper for the direct branches of `_fix_image_url`. -/
def fixImageUrlDirect (image_url : String) : Option String :=
  match fixImageUrlBranch image_url.toList with
  | .ret l => some (String.mk l)
  | .albumBranch _ => none

/-! ### `RedditInfoDownloader._sanitize_caption` -/

/-- Python regex `\s` over `str`: unicode whitespace. -/
def isPySpace (c : Char) : Bool :=
  decide ((9 ≤ c.toNat ∧ c.toNat ≤ 13) ∨ (28 ≤ c.toNat ∧ c.toNat ≤ 31) ∨
    c.toNat = 32 ∨ c.toNat = 133 ∨ c.toNat = 160 ∨ c.toNat = 5760 ∨
    (8192 ≤ c.toNat ∧ c.toNat ≤ 8202) ∨ c.toNat = 8232 ∨ c.toNat = 8233 ∨
    c.toNat = 8239 ∨ c.toNat = 8287 ∨ c.toNat = 12288)

/-- Opening characters of the class `[\[\(]`. -/
def isOpener (c : Char) : Bool := c = '[' ∨ c = '('

/-- Closing characters of the class `[\]\)]`. -/
def isCloser (c : Char) : Bool := c = ']' ∨ c = ')'

/-- Length of the longest prefix of `l` satisfying `p` (a greedy `p*`). -/
def countWhile (p : Char → Bool) (l : List Char) : Nat :=
  (l.takeWhile p).length

/-- For the regex `[\[\(].*?[\]\)]`: position of the nearest closing
bracket reachable from the character after an opener.  `.` does not match
a newline (no `re.DOTALL`), so the search fails on reaching one. -/
def findCloser : List Char → Option Nat
  | [] => none
  | c :: cs =>
    if isCloser c then some 0
    else if c = '\n' then none
    else (findCloser cs).map (· + 1)

/-- Fueled worker for `re.sub(r"[\[\(].*?[\]\)]", "", s)`: at an opener
with a reachable closer the whole bracketed span is dropped and scanning
continues after it (`re.sub` continues after each match); otherwise the
character is kept. -/
def bracketSubF : Nat → List Char → List Char
  | _, [] => []
  | 0, l => l
  | fuel + 1, c :: cs =>
    if isOpener c then
      match findCloser cs with
      | some j => bracketSubF fuel (cs.drop (j + 1))
      | none => c :: bracketSubF fuel cs
    else c :: bracketSubF fuel cs

/-- Embedding of `re.sub(r"[\[\(].*?[\]\)]", "", s)`. -/
def bracketSub (l : List Char) : List Char := bracketSubF l.length l

/-- Length of the match of `\s*\d+\s*[x×\*\,]\s*\d+\s*` (with
`re.IGNORECASE`) at the head of `l`, or `none`.  All pieces are greedy and
the character classes are pairwise disjoint, so the regex never
backtracks; `\d` is modelled over ASCII digits. -/
def matchRes (l : List Char) : Option Nat :=
  let n1 := countWhile isPySpace l
  let l1 := l.drop n1
  let d1 := countWhile Char.isDigit l1
  if d1 = 0 then none else
  let l2 := l1.drop d1
  let n2 := countWhile isPySpace l2
  match l2.drop n2 with
  | [] => none
  | c :: l4 =>
    if c = 'x' ∨ c = 'X' ∨ c = '×' ∨ c = '*' ∨ c = ',' then
      let n3 := countWhile isPySpace l4
      let l5 := l4.drop n3
      let d2 := countWhile Char.isDigit l5
      if d2 = 0 then none else
      let n4 := countWhile isPySpace (l5.drop d2)
      some (n1 + d1 + n2 + 1 + n3 + d2 + n4)
    else none

/-- Fueled worker for `re.sub(r"\s*\d+\s*[x×\*\,]\s*\d+\s*", "", s)`. -/
def resSubF : Nat → List Char → List Char
  | _, [] => []
  | 0, l => l
  | fuel + 1, c :: cs =>
    match matchRes (c :: cs) with
    | some k => resSubF fuel ((c :: cs).drop k)
    | none => c :: resSubF fuel cs

/-- Embedding of `re.sub(r"\s*\d+\s*[x×\*\,]\s*\d+\s*", "", s)` (resolution tokens). -/
def resSub (l : List Char) : List Char := resSubF l.length l

/-- Fueled worker for `re.sub(r"\s+", " ", s)`: every maximal whitespace
run becomes a single space. -/
def squeezeF : Nat → List Char → List Char
  | _, [] => []
  | 0, l => l
  | fuel + 1, c :: cs =>
    if isPySpace c then ' ' :: squeezeF fuel (cs.dropWhile isPySpace)
    else c :: squeezeF fuel cs

/-- Python `str.strip()`: drop whitespace from both ends. -/
def pyStrip (l : List Char) : List Char :=
  ((l.dropWhile isPySpace).reverse.dropWhile isPySpace).reverse

/-- Embedding of `re.sub(r"\s+", " ", s).strip()` — done after each removal pass. -/
def collapseWs (l : List Char) : List Char :=
  pyStrip (squeezeF l.length l)

/-- Character class `[_\d\w\.]` of the username regex, `\w`/`\d` modelled
over ASCII. -/
def isWordDot (c : Char) : Bool := c.isAlphanum || c = '_' || c = '.'

/-- The literal replacement token `<usr>`. -/
def usrToken : List Char := "<usr>".toList

/-- Fueled worker for `re.sub(r"\@[_\d\w\.]+", "<usr>", s)`: an `@`
followed by at least one class character is replaced together with the
whole greedy run. -/
def usrSubF : Nat → List Char → List Char
  | _, [] => []
  | 0, l => l
  | fuel + 1, c :: cs =>
    if c = '@' ∧ countWhile isWordDot cs ≠ 0 then
      usrToken ++ usrSubF fuel (cs.drop (countWhile isWordDot cs))
    else c :: usrSubF fuel cs

/-- Embedding of `re.sub(r"\@[_\d\w\.]+", "<usr>", s)`. -/
def usrSub (l : List Char) : List Char := usrSubF l.length l

/-- Embedding of `caption.encode("ascii", "ignore").decode("utf-8")`: keep ASCII. -/
def asciiOnly (l : List Char) : List Char :=
  l.filter (fun c => c.toNat < 128)

/-- Embedding of `RedditInfoDownloader._sanitize_caption`.  The external
`ftfy.fix_text` call is modelled as the identity.  This is exact on
entity-free printable ASCII (no `&`, so nothing to HTML-unescape; no
control or escape characters, no `\r`, nothing non-ASCII, and ASCII is
NFKD-normal, so none of `fix_text`'s repairs fire) — which covers every
concrete input of the claims below and the whole domain quantified over
by the idempotence theorem; `fix_text` is also the identity on the plain
`\n` of the counterexample (its line-break fix rewrites only `\r`-style
and unicode separators to `\n`).  `str.lower` is modelled by
`Char.toLower` (ASCII case mapping). -/
def sanitizeCaption (caption : String) : String :=
  let l0 := caption.toList.map Char.toLower
  let l1 := collapseWs (bracketSub l0)
  let l2 := collapseWs (resSub l1)
  String.mk (asciiOnly (usrSub l2))

/-! ### Imgur album resolution (`_fix_image_url`, lines 138-171) -/

/-- Rate-limit headers of the Imgur album response; `none` models a
missing header or one whose value `int(...)` cannot parse (both raise,
and are caught by the handler). -/
structure ImgurHeaders where
  userRemaining : Option Int
  userReset : Option Int
  clientRemaining : Option Int
deriving Repr, DecidableEq

/-- One secondary-API interaction: `fail` is a raising `requests.get`;
on success, `link` is the result of extracting
`content["data"]["images"][0]["link"]` (`none` when the body is
malformed, `data`/`images` is missing or empty — all raising). -/
inductive ImgurFetch
  | fail
  | success (link : Option String) (headers : ImgurHeaders)
deriving Repr, DecidableEq

/-- Outcome of the `try:` body in Python terms: a value, a raised
`Exception`, or a raised `SystemExit` (from `sys.exit`). -/
inductive PyOutcome
  | ok (link : String)
  | exc
  | exit
deriving Repr, DecidableEq

/-- The `X-RateLimit-ClientRemaining` check (lines 163-167): a value
≤ 500 calls `sys.exit(0)`. -/
def clientCheck (headers : ImgurHeaders) (link : String) : PyOutcome :=
  match headers.clientRemaining with
  | none => .exc
  | some c => if c ≤ 500 then .exit else .ok link

/-- The `try:` body of the album branch (lines 141-167): extract the
first image link, then the `X-RateLimit-UserRemaining` check (a value
≤ 3 sleeps until `X-RateLimit-UserReset` — a stall, not an outcome, but
reading a missing reset header raises), then the client check. -/
def albumTryBody : ImgurFetch → PyOutcome
  | .fail => .exc
  | .success none _ => .exc
  | .success (some link) headers =>
    match headers.userRemaining with
    | none => .exc
    | some u =>
      if u ≤ 3 then
        match headers.userReset with
        | none => .exc
        | some _ => clientCheck headers link
      else clientCheck headers link

/-- What the album step does to the surrounding run: continue the batch
with a URL, or abort the whole run. -/
inductive ResolveStep
  | continueWith (url : String)
  | abortRun
deriving Repr, DecidableEq

/-- The placeholder substituted on failure (line 169). -/
def removedSentinel : String := "https://i.imgur.com/removed.png"

/-- Album branch together with its `except Exception:` handler: a raised
`Exception` yields the sentinel URL and resolution continues;
`sys.exit` raises `SystemExit`, which does not derive from `Exception`,
so it passes the handler and aborts the run. -/
def fixAlbumUrl (r : ImgurFetch) : ResolveStep :=
  match albumTryBody r with
  | .ok link => .continueWith link
  | .exc => .continueWith removedSentinel
  | .exit => .abortRun

/-! ### Data model: annotation records and stores -/

/-- One curated post (`info_downloader.py` lines 84-96). -/
structure AnnRecord where
  image_id : String
  subreddit : String
  url : String
  caption : String
  raw_caption : String
  score : Int
  author : String
  created_utc : Int
  permalink : String
deriving Repr, DecidableEq

/-- A `YYYY-MM-DD` header date, already parsed
(`datetime.strptime(d, "%Y-%m-%d")`); `datetime` comparison is
lexicographic on (year, month, day). -/
structure Date where
  year : Nat
  month : Nat
  day : Nat
deriving Repr, DecidableEq

/-- The `datetime` order on header dates. -/
def Date.le (a b : Date) : Prop :=
  a.year < b.year ∨ (a.year = b.year ∧
    (a.month < b.month ∨ (a.month = b.month ∧ a.day ≤ b.day)))

instance : DecidableRel Date.le := fun a b =>
  inferInstanceAs (Decidable (a.year < b.year ∨ (a.year = b.year ∧
    (a.month < b.month ∨ (a.month = b.month ∧ a.day ≤ b.day)))))

/-- Python `min` accumulation step: the running best is replaced only by
a strictly smaller element (`x < acc`, i.e. `¬ acc ≤ x`). -/
def dateMin (acc x : Date) : Date := if Date.le acc x then acc else x

/-- Python `max` accumulation step: replaced only by a strictly larger
element. -/
def dateMax (acc x : Date) : Date := if Date.le x acc then acc else x

/-- A `<stage>_filter` marker (`{num_removed, model,
[confidence_threshold]}`). -/
structure FilterMark where
  num_removed : Nat
  model : String
  confidence_threshold : Option ℚ
deriving Repr, DecidableEq

/-- The `info` header of an annotation file. -/
structure StoreInfo where
  start_date : Date
  end_date : Date
  url : String
  version : String
  word_filter : Option FilterMark
  nsfw_filter : Option FilterMark
  face_filter : Option FilterMark
deriving Repr, DecidableEq

/-- An annotation file: `{"info": ..., "annotations": [...]}`. -/
structure Store where
  info : StoreInfo
  annotations : List AnnRecord
deriving Repr, DecidableEq

/-! ### Python dict semantics (keyed by `image_id`) -/

/-- Insert into a Python dict: an existing key keeps its position and
gets the new value; a new key is appended. -/
def upsert (m : List (String × AnnRecord)) (k : String) (v : AnnRecord) :
    List (String × AnnRecord) :=
  match m with
  | [] => [(k, v)]
  | (k', v') :: rest =>
    if k' = k then (k', v) :: rest else (k', v') :: upsert rest k v

/-- Embedding of the dict comprehension keyed by `image_id`. -/
def annotationsMap (anns : List AnnRecord) : List (String × AnnRecord) :=
  anns.foldl (fun m a => upsert m a.image_id a) []

/-- Embedding of `dict.pop(k)`: `none` models the `KeyError` on a missing key. -/
def popKey (m : List (String × AnnRecord)) (k : String) :
    Option (List (String × AnnRecord)) :=
  match m with
  | [] => none
  | (k', v) :: rest =>
    if k' = k then some rest else (popKey rest k).map ((k', v) :: ·)

/-- Sort key `lambda k: k["created_utc"]`. -/
def annLE (a b : AnnRecord) : Prop := a.created_utc ≤ b.created_utc

instance : DecidableRel annLE := fun a b =>
  inferInstanceAs (Decidable (a.created_utc ≤ b.created_utc))

instance : IsTotal AnnRecord annLE :=
  ⟨fun a b => Int.le_total a.created_utc b.created_utc⟩

instance : IsTrans AnnRecord annLE :=
  ⟨fun _ _ _ h h' => Int.le_trans h h'⟩

/-- Embedding of `sorted(xs, key=...created_utc...)` (a stable sort). -/
def sortAnns (anns : List AnnRecord) : List AnnRecord :=
  List.insertionSort annLE anns

/-- Embedding of `_remove_images_and_annotations` (`filter.py` lines 223-242): build
the id-keyed dict, pop every id in `ids_to_remove` (`KeyError`, modelled
as `none`, if one is missing), and return the remaining values sorted by
`created_utc`.  Deleting the backing image files is a file-system side
effect outside the model. -/
def removeAnnotations (anns : List AnnRecord) (ids : List String) :
    Option (List AnnRecord) :=
  (ids.foldlM (fun m i => popKey m i) (annotationsMap anns)).map
    (fun m => sortAnns (m.map Prod.snd))

/-! ### Filter stages (`filter.py`) -/

/-- Shared outcome of a filter command: `sys.exit(0)` on an existing
marker, `KeyError` from the pop, or the rewritten file. -/
inductive FilterOutcome
  | alreadyFiltered
  | keyError
  | wrote (s : Store)
deriving Repr, DecidableEq

def WORDS_REPO : String :=
  "LDNOOBW/List-of-Dirty-Naughty-Obscene-and-Otherwise-Bad-Words"

def NSFW_REPO : String := "gantman/nsfw_model"

def FACES_REPO : String := "redcaps-dataset/pytorch-retinaface"

/-- Line 69: any blocklist word, whitespace-padded, occurring in the
whitespace-padded caption. -/
def badWordIn (blockwords : List String) (caption : String) : Bool :=
  blockwords.any (fun bad =>
    pyContains (" " ++ bad ++ " ").toList (" " ++ caption ++ " ").toList)

/-- Embedding of `filter_words` (lines 43-86): abort via `sys.exit(0)` if
`word_filter` is already in `info`; otherwise flag captions containing a
blockword, remove them, stamp the marker, and rewrite the file. -/
def filter_words (blockwords : List String) (store : Store) : FilterOutcome :=
  if store.info.word_filter.isSome then .alreadyFiltered
  else
    let ids := store.annotations.filterMap (fun a =>
      if badWordIn blockwords a.caption then some a.image_id else none)
    match removeAnnotations store.annotations ids with
    | none => .keyError
    | some out => .wrote
        { info := { store.info with word_filter := some ⟨ids.length, WORDS_REPO, none⟩ }
          annotations := out }

/-- Embedding of `os.path.join(images_dirpath, ann["subreddit"], f"...jpg")`. -/
def imagePath (images_dirpath : String) (a : AnnRecord) : String :=
  images_dirpath ++ "/" ++ a.subreddit ++ "/" ++ a.image_id ++ ".jpg"

/-- Embedding of `os.path.basename(p).replace(".jpg", "")`. -/
def idOfPath (p : String) : String :=
  String.mk (pyReplace ".jpg".toList [] (lastSlashComponent p.toList))

/-- NSFW detector output for one image (softmax probabilities). -/
structure NsfwPred where
  drawing : ℚ
  hentai : ℚ
  neutral : ℚ
  porn : ℚ
  sexy : ℚ
deriving Repr, DecidableEq

/-- Embedding of `filter_nsfw` (lines 105-158): abort if `nsfw_filter` is present;
otherwise restrict to image paths existing on disk (`onDisk`), flag an
image when `porn + hentai > confidence_threshold` (the detector is
positional on the path list, modelled as a function of the path), remove
and stamp. -/
def filter_nsfw (images_dirpath : String) (onDisk : String → Bool)
    (detect : String → NsfwPred) (confidence_threshold : ℚ)
    (store : Store) : FilterOutcome :=
  if store.info.nsfw_filter.isSome then .alreadyFiltered
  else
    let image_paths := (store.annotations.map (imagePath images_dirpath)).filter onDisk
    let ids := image_paths.filterMap (fun p =>
      if (detect p).porn + (detect p).hentai > confidence_threshold then
        some (idOfPath p) else none)
    match removeAnnotations store.annotations ids with
    | none => .keyError
    | some out => .wrote
        { info := { store.info with
            nsfw_filter := some ⟨ids.length, NSFW_REPO, some confidence_threshold⟩ }
          annotations := out }

/-- Embedding of `filter_faces` (lines 170-220): abort if `face_filter` is present;
otherwise flag images with at least one detected box (`numBoxes` is
`len(pred["boxes"])` at the configured threshold), remove and stamp. -/
def filter_faces (images_dirpath : String) (onDisk : String → Bool)
    (numBoxes : String → Nat) (confidence_threshold : ℚ)
    (store : Store) : FilterOutcome :=
  if store.info.face_filter.isSome then .alreadyFiltered
  else
    let image_paths := (store.annotations.map (imagePath images_dirpath)).filter onDisk
    let ids := image_paths.filterMap (fun p =>
      if numBoxes p > 0 then some (idOfPath p) else none)
    match removeAnnotations store.annotations ids with
    | none => .keyError
    | some out => .wrote
        { info := { store.info with
            face_filter := some ⟨ids.length, FACES_REPO, some confidence_threshold⟩ }
          annotations := out }

/-! ### Merge (`merge.py`) -/

/-- Does `info` carry any of the three filter markers (lines 91-95)? -/
def hasAnyFilter (s : Store) : Bool :=
  s.info.word_filter.isSome || s.info.nsfw_filter.isSome || s.info.face_filter.isSome

/-- Outcome of the `merge` command: fewer than two files warns and
returns without writing; `--delete-old` combined with a version mismatch
or an already-filtered input calls `sys.exit(0)` mid-loop, before any
write; otherwise the merged file is written. -/
inductive MergeOutcome
  | noop
  | abortedExit
  | wrote (s : Store)
deriving Repr, DecidableEq

/-- Records of the merged file (lines 63-67 and 106-111): concatenate
the `annotations` lists in sorted-path file order, deduplicate through
an `image_id`-keyed dict (last-seen value wins, first-seen position),
and sort by `created_utc`. -/
def mergedRecords (stores : List Store) : List AnnRecord :=
  sortAnns ((annotationsMap ((stores.map Store.annotations).flatten)).map Prod.snd)

/-- Embedding of `merge` (lines 31-128), after glob expansion and loading: `stores`
are the input files in `sorted(...)` path order, `version` is the
package constant `redcaps.__version__`, `delete_old` the `--delete-old`
flag.  Console warnings and the deletion of source files are side
effects outside the model. -/
def merge (version : String) (stores : List Store) (delete_old : Bool) :
    MergeOutcome :=
  match stores with
  | [] => .noop
  | [_] => .noop
  | s0 :: s1 :: rest =>
    if delete_old ∧ (s0 :: s1 :: rest).any
        (fun s => s.info.version != version || hasAnyFilter s) then .abortedExit
    else
      .wrote
        { info :=
            { start_date :=
                ((s1 :: rest).map (fun s => s.info.start_date)).foldl dateMin s0.info.start_date
              end_date :=
                ((s1 :: rest).map (fun s => s.info.end_date)).foldl dateMax s0.info.end_date
              url := "https://redcaps.xyz"
              version := version
              word_filter := none, nsfw_filter := none, face_filter := none }
          annotations := mergedRecords (s0 :: s1 :: rest) }

/-! ### Validation (`validate.py`) -/

/-- Gregorian leap year. -/
def isLeapYear (y : Nat) : Bool := y % 4 = 0 && (y % 100 != 0 || y % 400 = 0)

def daysInYear (y : Nat) : Nat := if isLeapYear y then 366 else 365

/-- Days in the months of `y` strictly before month `m`. -/
def monthOffset (y m : Nat) : Nat :=
  ([31, if isLeapYear y then 29 else 28, 31, 30, 31, 30, 31, 31, 30, 31, 30, 31].take (m - 1)).sum

/-- Days between 1970-01-01 and a (valid, not earlier) Gregorian date. -/
def daysSince1970 (d : Date) : Nat :=
  (List.range (d.year - 1970)).foldl (fun acc i => acc + daysInYear (1970 + i)) 0
    + monthOffset d.year d.month + (d.day - 1)

/-- Embedding of `datetime.strptime(d, "%Y-%m-%d").replace(tzinfo=utc).timestamp()`. -/
def epochOfDate (d : Date) : Int := (daysSince1970 d : Int) * 86400

/-- The intended time-window check of `validate.py` (lines 59-70):
`created_utc` within `[start_date 00:00:00, end_date 23:59:59]` UTC —
the end bound is `end + timedelta(hours=24, seconds=-1)`. -/
def withinDateRange (info : StoreInfo) (a : AnnRecord) : Prop :=
  epochOfDate info.start_date ≤ a.created_utc ∧
    a.created_utc ≤ epochOfDate info.end_date + 86399

instance (info : StoreInfo) (a : AnnRecord) : Decidable (withinDateRange info a) :=
  inferInstanceAs (Decidable (epochOfDate info.start_date ≤ a.created_utc ∧
    a.created_utc ≤ epochOfDate info.end_date + 86399))

/-- The member test on line 67 of `validate.py`:
`if "annotations" in ANNOTATIONS["annotations"]:` asks whether the
*string* `"annotations"` is an element of the list of annotation
records.  Each element is a JSON object (`dict`), and in Python
`str == dict` is `False`, so the test is `False` on every list of
records. -/
def timestampGuard (anns : List AnnRecord) : Bool :=
  anns.any (fun _ => false)

/-- The out-of-range records `validate` warns about (lines 67-70), one
warning per returned record, guarded by `timestampGuard`.  (Were the
guard ever true, the loop body would actually raise `TypeError` when
comparing a `datetime` with the integer `created_utc`; the guard is
false on every record list, so the dead comparison is modelled
mathematically.)  `validate` only prints; it never writes the file. -/
def validateTimestampWarnings (store : Store) : List AnnRecord :=
  if timestampGuard store.annotations then
    store.annotations.filterMap (fun a =>
      if ¬ withinDateRange store.info a then some a else none)
  else []

/-! ### Identifier harvesting windows (`id_downloader.py`) -/

/-- The shape of one `_download_worker` execution: a `node` is a window
whose response hit the page cap (`len(_ids) >= 100`, line 127) and was
split in two at `mid_time = start_time + timedelta(hours=time_window/2)`
(line 131); a `leaf` is a window answered below the cap. -/
inductive SplitTree
  | leaf
  | node (lt rt : SplitTree)
deriving Repr, DecidableEq

/-- The query windows issued by `_download_worker` for a window starting
at hour `s` with span `d` hours, given a split shape: a pair `(s, d)`
stands for the half-open interval `[s, s+d)` of instants (the worker
encodes it as `after = start_time`, `before = start_time + d hours - 1
second`, the inclusive second-level rendering of the same interval). -/
def windows : SplitTree → ℚ → ℚ → List (ℚ × ℚ)
  | .leaf, s, d => [(s, d)]
  | .node lt rt, s, d => windows lt s (d / 2) ++ windows rt (s + d / 2) (d / 2)

/-- Instant `x` lies in query window `w`. -/
def inWindow (w : ℚ × ℚ) (x : ℚ) : Prop := w.1 ≤ x ∧ x < w.1 + w.2

/-- Instant `x` is covered by some window of `ws`. -/
def coveredBy (ws : List (ℚ × ℚ)) (x : ℚ) : Prop := ∃ w ∈ ws, inWindow w x

/-- Two windows share no instant. -/
def windowDisjoint (u v : ℚ × ℚ) : Prop := ∀ x : ℚ, ¬ (inWindow u x ∧ inWindow v x)

/-- Does `l` end with `pat`? (`str.endswith`.) -/
def pyEndsWith (pat l : List Char) : Bool :=
  pyStartsWith pat.reverse l.reverse

/-- The plain-post classification of `_fix_image_url` (lines 120-127): no
`i.imgur.com` substring, and — after the mobile-prefix rewrite — no
`/a/` and no `gallery` substring. -/
def isPlainPostUrl (image_url : List Char) : Bool :=
  !pyContains "i.imgur.com".toList image_url &&
    (let u := pyReplace "m.imgur.com".toList "imgur.com".toList image_url
     !pyContains "/a/".toList u && !pyContains "gallery".toList u)

/-! ### Concrete example data used by witnesses and counterexamples -/

/-- An unfiltered example header. -/
def exInfo : StoreInfo :=
  { start_date := ⟨2020, 1, 1⟩, end_date := ⟨2020, 1, 31⟩
    url := "https://redcaps.xyz", version := "v1"
    word_filter := none, nsfw_filter := none, face_filter := none }

def exAnn1 : AnnRecord :=
  { image_id := "aaa111", subreddit := "cats", url := "https://i.redd.it/aaa111.jpg"
    caption := "my cat", raw_caption := "My Cat", score := 5, author := "u1"
    created_utc := 1577840000, permalink := "/r/cats/aaa111" }

def exAnn2 : AnnRecord :=
  { image_id := "bbb222", subreddit := "cats", url := "https://i.redd.it/bbb222.jpg"
    caption := "another cat", raw_caption := "Another Cat", score := 3, author := "u2"
    created_utc := 1577830000, permalink := "/r/cats/bbb222" }

def exStoreA : Store := ⟨exInfo, [exAnn1, exAnn2]⟩

def exInfoB : StoreInfo :=
  { start_date := ⟨2020, 2, 1⟩, end_date := ⟨2020, 2, 29⟩
    url := "https://redcaps.xyz", version := "v1"
    word_filter := none, nsfw_filter := none, face_filter := none }

def exAnn3 : AnnRecord :=
  { image_id := "ccc333", subreddit := "dogs", url := "https://i.redd.it/ccc333.jpg"
    caption := "a dog", raw_caption := "A Dog", score := 7, author := "u3"
    created_utc := 1580600000, permalink := "/r/dogs/ccc333" }

def exStoreB : Store := ⟨exInfoB, [exAnn3]⟩

/-- A header that already carries all three filter markers. -/
def exFilteredInfo : StoreInfo :=
  { exInfo with
    word_filter := some ⟨0, WORDS_REPO, none⟩
    nsfw_filter := some ⟨0, NSFW_REPO, some (9/10)⟩
    face_filter := some ⟨0, FACES_REPO, some (9/10)⟩ }

def exFilteredStore : Store := ⟨exFilteredInfo, [exAnn1]⟩

/-- A record far outside `exInfo`'s date range (epoch 0 is 1970). -/
def exEarlyAnn : AnnRecord := { exAnn1 with image_id := "early0", created_utc := 0 }

/-- A store whose single record violates the header time window. -/
def exBadStore : Store := ⟨exInfo, [exEarlyAnn]⟩

/-- Invariant of an `image_id`-keyed Python dict: keys are distinct, and
every value's `image_id` is its key. -/
def KeyInv (m : List (String × AnnRecord)) : Prop :=
  (m.map Prod.fst).Nodup ∧ ∀ p ∈ m, p.2.image_id = p.1

/-! ### Predicates for the sanitization analysis -/

/-- Two adjacent characters are not both whitespace. -/
def noTwoSpaces (a b : Char) : Prop :=
  ¬ (isPySpace a = true ∧ isPySpace b = true)

/-- Shape of `re.sub(r"\s+", " ", s)` output: every whitespace character
is a plain space, and no two are adjacent. -/
def Squeezed (l : List Char) : Prop :=
  (∀ c ∈ l, isPySpace c = true → c = ' ') ∧ List.Chain' noTwoSpaces l

/-- No whitespace at either end (the state `str.strip()` leaves). -/
def StripClean (l : List Char) : Prop :=
  (∀ c, l.head? = some c → isPySpace c = false) ∧
    (∀ c, l.getLast? = some c → isPySpace c = false)

/-- The username regex can fire nowhere: no `@` is immediately followed
by a character of its class. -/
def AtClean (l : List Char) : Prop :=
  List.Chain' (fun a b => a = '@' → isWordDot b = false) l

/-- Characters on which a sanitization pass is stable: printable ASCII
(U+0020 to U+007E) — which rules out newlines, carriage returns and the
control/escape characters `ftfy.fix_text` rewrites — and additionally
not an ampersand (code point 38, so no HTML entities for `fix_text` to
unescape), not a digit, and not an opening bracket. -/
def TameChar (c : Char) : Prop :=
  (32 ≤ c.toNat ∧ c.toNat ≤ 126) ∧ c.toNat ≠ 38 ∧
    c.isDigit = false ∧ isOpener c = false

instance (c : Char) : Decidable (TameChar c) :=
  inferInstanceAs (Decidable ((32 ≤ c.toNat ∧ c.toNat ≤ 126) ∧ c.toNat ≠ 38 ∧
    c.isDigit = false ∧ isOpener c = false))

/-! ## Theorems -/

/-- Claim C1, code-bug exhibit.  The guard on line 67 of `validate.py`
tests membership of the string `"annotations"` in the record *list*
(`ANNOTATIONS["annotations"]`) instead of in the top-level object, so it
is false on every list of records and the timestamp loop never runs:
validation emits no out-of-range warning for any store — in particular
not for `exBadStore`, whose single record (epoch 0, i.e. 1970) lies far
outside its header range 2020-01-01 .. 2020-01-31. -/
theorem validate_timestamp_check_dead :
    (∀ s : Store, validateTimestampWarnings s = []) ∧
    ¬ withinDateRange exBadStore.info exEarlyAnn ∧
    validateTimestampWarnings exBadStore = [] := by
  refine ⟨?_, by decide, by decide⟩
  intro s
  have hg : timestampGuard s.annotations = false := by
    simp [timestampGuard]
  simp [validateTimestampWarnings, hg]

/-- The `UInt32` order in terms of `toNat`. -/
theorem uint32_le_iff_toNat_le (a b : UInt32) : a ≤ b ↔ a.toNat ≤ b.toNat := by
  rw [UInt32.le_def, BitVec.le_def]
  exact Iff.rfl

/-- The map `Char.ofNat` on a valid code point round-trips through `toNat`. -/
theorem toNat_ofNat_valid (n : Nat) (h : n.isValidChar) :
    (Char.ofNat n).toNat = n := by
  unfold Char.ofNat
  rw [dif_pos h]
  rfl

/-- Code point of `Char.toLower`: basic latin upper case shifts by 32,
everything else is unchanged. -/
theorem toNat_toLower (c : Char) :
    (Char.toLower c).toNat =
      if 65 ≤ c.toNat ∧ c.toNat ≤ 90 then c.toNat + 32 else c.toNat := by
  unfold Char.toLower
  split
  · next h =>
    rw [if_pos ⟨h.1, h.2⟩]
    exact toNat_ofNat_valid _ (Or.inl (by omega))
  · next h =>
    rw [if_neg h]

/-- A character that is not basic latin upper case is `toLower`-fixed. -/
theorem toLower_fix (c : Char) (h : ¬ (65 ≤ c.toNat ∧ c.toNat ≤ 90)) :
    c.toLower = c := by
  unfold Char.toLower
  rw [if_neg h]

/-- The map `Char.toLower` is idempotent. -/
theorem toLower_toLower (c : Char) : c.toLower.toLower = c.toLower := by
  by_cases h : 65 ≤ c.toNat ∧ c.toNat ≤ 90
  · have ht := toNat_toLower c
    rw [if_pos h] at ht
    exact toLower_fix _ (by omega)
  · rw [toLower_fix c h, toLower_fix c h]

/-- The predicate `Char.isDigit` through code points. -/
theorem isDigit_toNat (c : Char) :
    c.isDigit = true ↔ 48 ≤ c.toNat ∧ c.toNat ≤ 57 := by
  simp only [Char.isDigit, Char.toNat, Bool.and_eq_true, decide_eq_true_eq,
    uint32_le_iff_toNat_le]
  exact Iff.rfl

/-- A character whose code point is neither `[` (91) nor `(` (40) is not
an opener. -/
theorem isOpener_eq_false (c : Char) (h91 : c.toNat ≠ 91) (h40 : c.toNat ≠ 40) :
    isOpener c = false := by
  apply decide_eq_false
  rintro (rfl | rfl)
  · exact h91 rfl
  · exact h40 rfl

/-- The map `toLower` preserves tameness. -/
theorem tame_toLower (c : Char) (h : TameChar c) : TameChar c.toLower := by
  obtain ⟨hr, hn, hd, ho⟩ := h
  by_cases hu : 65 ≤ c.toNat ∧ c.toNat ≤ 90
  · have ht := toNat_toLower c
    rw [if_pos hu] at ht
    refine ⟨⟨by omega, by omega⟩, by omega, ?_, ?_⟩
    · rw [Bool.eq_false_iff]
      intro hdig
      have := (isDigit_toNat _).mp hdig
      omega
    · exact isOpener_eq_false _ (by omega) (by omega)
  · rw [toLower_fix c hu]
    exact ⟨hr, hn, hd, ho⟩

/-- A `toLower` output is `toLower`-fixed. -/
theorem map_toLower_fix (l : List Char) (h : ∀ c ∈ l, c.toLower = c) :
    l.map Char.toLower = l := by
  rw [List.map_congr_left h]
  simp

/-- If the head satisfies `p = false`, a greedy `p*` matches nothing. -/
theorem countWhile_eq_zero (p : Char → Bool) (l : List Char)
    (h : ∀ c, l.head? = some c → p c = false) : countWhile p l = 0 := by
  cases l with
  | nil => rfl
  | cons c cs => simp [countWhile, List.takeWhile_cons, h c rfl]

/-- Without openers the bracket regex never fires. -/
theorem bracketSubF_eq_self (l : List Char) (h : ∀ c ∈ l, isOpener c = false) :
    ∀ fuel, bracketSubF fuel l = l := by
  induction l with
  | nil => intro fuel; cases fuel <;> rfl
  | cons c cs ih =>
    intro fuel
    cases fuel with
    | zero => rfl
    | succ n =>
      have hc : isOpener c = false := h c (List.mem_cons_self c cs)
      simp only [bracketSubF, hc, Bool.false_eq_true, if_false]
      rw [ih (fun d hd => h d (List.mem_cons_of_mem c hd)) n]

/-- Without digits the resolution regex matches nowhere. -/
theorem matchRes_eq_none (l : List Char) (h : ∀ c ∈ l, c.isDigit = false) :
    matchRes l = none := by
  have hd : countWhile Char.isDigit (l.drop (countWhile isPySpace l)) = 0 := by
    apply countWhile_eq_zero
    intro c hc
    exact h c (List.mem_of_mem_drop (List.mem_of_mem_head? (by rw [hc]; rfl)))
  simp [matchRes, hd]

/-- Without digits the resolution pass is the identity. -/
theorem resSubF_eq_self (l : List Char) (h : ∀ c ∈ l, c.isDigit = false) :
    ∀ fuel, resSubF fuel l = l := by
  induction l with
  | nil => intro fuel; cases fuel <;> rfl
  | cons c cs ih =>
    intro fuel
    cases fuel with
    | zero => rfl
    | succ n =>
      simp only [resSubF, matchRes_eq_none _ h]
      rw [ih (fun d hd => h d (List.mem_cons_of_mem c hd)) n]

/-- Where the username regex can fire nowhere, its pass is the
identity. -/
theorem usrSubF_eq_self (l : List Char) (h : AtClean l) :
    ∀ fuel, usrSubF fuel l = l := by
  induction l with
  | nil => intro fuel; cases fuel <;> rfl
  | cons c cs ih =>
    intro fuel
    cases fuel with
    | zero => rfl
    | succ n =>
      have hcond : ¬ (c = '@' ∧ countWhile isWordDot cs ≠ 0) := by
        rintro ⟨rfl, hk⟩
        apply hk
        apply countWhile_eq_zero
        intro d hd
        exact (List.chain'_cons'.mp h).1 d (Option.mem_def.mpr hd) rfl
      simp only [usrSubF, if_neg hcond]
      rw [ih (List.chain'_cons'.mp h).2 n]

/-- On all-ASCII input the final encode/decode step is the identity. -/
theorem asciiOnly_eq_self (l : List Char) (h : ∀ c ∈ l, c.toNat < 128) :
    asciiOnly l = l :=
  List.filter_eq_self.mpr (fun c hc => by simp [h c hc])

/-- With no fuel the squeeze returns its input. -/
theorem squeezeF_zero (l : List Char) : squeezeF 0 l = l := by
  cases l <;> rfl

/-- Characters of the squeeze output come from the input, or are the
space it substitutes. -/
theorem mem_squeezeF (fuel : Nat) :
    ∀ (l : List Char) (c : Char), c ∈ squeezeF fuel l → c ∈ l ∨ c = ' ' := by
  induction fuel with
  | zero =>
    intro l c hc
    rw [squeezeF_zero] at hc
    exact Or.inl hc
  | succ n ih =>
    intro l c hc
    cases l with
    | nil => cases hc
    | cons d ds =>
      by_cases hsp : isPySpace d = true
      · simp only [squeezeF, hsp, if_true] at hc
        rcases List.mem_cons.mp hc with rfl | hc'
        · exact Or.inr rfl
        · rcases ih _ c hc' with h | h
          · exact Or.inl (List.mem_cons_of_mem d
              ((List.dropWhile_sublist isPySpace).subset h))
          · exact Or.inr h
      · simp only [squeezeF, hsp, Bool.false_eq_true, if_false] at hc
        rcases List.mem_cons.mp hc with rfl | hc'
        · exact Or.inl (List.mem_cons_self _ _)
        · rcases ih _ c hc' with h | h
          · exact Or.inl (List.mem_cons_of_mem d h)
          · exact Or.inr h

/-- The head of a `dropWhile` output refutes the predicate. -/
theorem head_dropWhile_false (p : Char → Bool) (l : List Char) :
    ∀ c, (l.dropWhile p).head? = some c → p c = false := by
  induction l with
  | nil => intro c hc; cases hc
  | cons d ds ih =>
    intro c hc
    by_cases hd : p d = true
    · rw [List.dropWhile_cons, if_pos hd] at hc
      exact ih c hc
    · rw [List.dropWhile_cons, if_neg hd] at hc
      cases hc
      exact Bool.eq_false_iff.mpr hd

/-- If the input head is not whitespace, neither is the output head. -/
theorem squeezeF_head_nonspace (fuel : Nat) (l : List Char)
    (h : ∀ c, l.head? = some c → isPySpace c = false) :
    ∀ c, (squeezeF fuel l).head? = some c → isPySpace c = false := by
  cases fuel with
  | zero => rw [squeezeF_zero]; exact h
  | succ n =>
    cases l with
    | nil => intro c hc; cases hc
    | cons d ds =>
      have hd := h d rfl
      intro c hc
      simp only [squeezeF, hd, Bool.false_eq_true, if_false] at hc
      cases hc
      exact hd

/-- Every whitespace character of the squeeze output is a space. -/
theorem squeezeF_space_blank (fuel : Nat) :
    ∀ (l : List Char), l.length ≤ fuel →
      ∀ c ∈ squeezeF fuel l, isPySpace c = true → c = ' ' := by
  induction fuel with
  | zero =>
    intro l hlen c hc
    rw [Nat.le_zero, List.length_eq_zero] at hlen
    subst hlen
    cases hc
  | succ n ih =>
    intro l hlen c hc hsp
    cases l with
    | nil => cases hc
    | cons d ds =>
      rw [List.length_cons] at hlen
      by_cases hd : isPySpace d = true
      · simp only [squeezeF, hd, if_true] at hc
        rcases List.mem_cons.mp hc with rfl | hc'
        · rfl
        · refine ih _ ?_ c hc' hsp
          have := (List.dropWhile_sublist (l := ds) isPySpace).length_le
          omega
      · simp only [squeezeF, hd, Bool.false_eq_true, if_false] at hc
        rcases List.mem_cons.mp hc with rfl | hc'
        · exact absurd hsp hd
        · exact ih _ (by omega) c hc' hsp

/-- The squeeze output has no two adjacent whitespace characters. -/
theorem squeezeF_chain (fuel : Nat) :
    ∀ (l : List Char), l.length ≤ fuel →
      List.Chain' noTwoSpaces (squeezeF fuel l) := by
  induction fuel with
  | zero =>
    intro l hlen
    rw [Nat.le_zero, List.length_eq_zero] at hlen
    subst hlen
    exact List.chain'_nil
  | succ n ih =>
    intro l hlen
    cases l with
    | nil => exact List.chain'_nil
    | cons d ds =>
      rw [List.length_cons] at hlen
      by_cases hd : isPySpace d = true
      · simp only [squeezeF, hd, if_true]
        apply List.chain'_cons'.mpr
        constructor
        · intro b hb
          have hlen' : (ds.dropWhile isPySpace).length ≤ n := by
            have := (List.dropWhile_sublist (l := ds) isPySpace).length_le
            omega
          have hb' : isPySpace b = false :=
            squeezeF_head_nonspace n _ (head_dropWhile_false isPySpace ds) b hb
          rintro ⟨_, hb2⟩
          rw [hb'] at hb2
          cases hb2
        · refine ih _ ?_
          have := (List.dropWhile_sublist (l := ds) isPySpace).length_le
          omega
      · simp only [squeezeF, hd, Bool.false_eq_true, if_false]
        apply List.chain'_cons'.mpr
        refine ⟨?_, ih _ (by omega)⟩
        intro b hb
        rintro ⟨hd2, _⟩
        rw [hd2] at hd
        exact hd rfl

/-- The function `dropWhile` is the identity when the head refutes the predicate. -/
theorem dropWhile_eq_self_of_head (p : Char → Bool) (l : List Char)
    (h : ∀ c, l.head? = some c → p c = false) : l.dropWhile p = l := by
  cases l with
  | nil => rfl
  | cons d ds => rw [List.dropWhile_cons, if_neg (by rw [h d rfl]; simp)]

/-- On a squeezed list the squeeze is the identity. -/
theorem squeezeF_eq_self (l : List Char) (h : Squeezed l) :
    ∀ fuel, l.length ≤ fuel → squeezeF fuel l = l := by
  induction l with
  | nil => intro fuel _; cases fuel <;> rfl
  | cons c cs ih =>
    intro fuel hlen
    obtain ⟨hblank, hchain⟩ := h
    have htail : Squeezed cs :=
      ⟨fun d hd => hblank d (List.mem_cons_of_mem c hd), (List.chain'_cons'.mp hchain).2⟩
    cases fuel with
    | zero => simp at hlen
    | succ n =>
      rw [List.length_cons] at hlen
      by_cases hsp : isPySpace c = true
      · have hc' : c = ' ' := hblank c (List.mem_cons_self c cs) hsp
        have hheads : ∀ d, cs.head? = some d → isPySpace d = false := by
          intro d hd
          have hrel := (List.chain'_cons'.mp hchain).1 d (Option.mem_def.mpr hd)
          cases hfd : isPySpace d
          · rfl
          · exact absurd ⟨hsp, hfd⟩ hrel
        simp only [squeezeF, hsp, if_true]
        rw [dropWhile_eq_self_of_head isPySpace cs hheads,
          ih htail n (by omega), hc']
      · simp only [squeezeF, hsp, Bool.false_eq_true, if_false]
        rw [ih htail n (by omega)]

/-- Characters of the strip output come from its input. -/
theorem pyStrip_mem (l : List Char) (c : Char) (h : c ∈ pyStrip l) : c ∈ l := by
  unfold pyStrip at h
  rw [List.mem_reverse] at h
  have h1 := (List.dropWhile_sublist isPySpace).subset h
  rw [List.mem_reverse] at h1
  exact (List.dropWhile_sublist isPySpace).subset h1

/-- The head of a strip output is not whitespace. -/
theorem pyStrip_head_nonspace (l : List Char) :
    ∀ c, (pyStrip l).head? = some c → isPySpace c = false := by
  intro c hc
  unfold pyStrip at hc
  set A := l.dropWhile isPySpace with hA
  set X := A.reverse.dropWhile isPySpace with hX
  by_cases hXnil : X = []
  · rw [hXnil] at hc
    cases hc
  · have h1 : X.getLast? = some c := by
      rw [← List.head?_reverse]
      exact hc
    have h2 : A.reverse.getLast? = X.getLast? := by
      conv_lhs => rw [← List.takeWhile_append_dropWhile isPySpace A.reverse]
      exact List.getLast?_append_of_ne_nil _ hXnil
    rw [List.getLast?_reverse] at h2
    exact head_dropWhile_false isPySpace l c (by rw [← hA, h2, h1])

/-- The last character of a strip output is not whitespace. -/
theorem pyStrip_getLast_nonspace (l : List Char) :
    ∀ c, (pyStrip l).getLast? = some c → isPySpace c = false := by
  intro c hc
  unfold pyStrip at hc
  rw [List.getLast?_reverse] at hc
  exact head_dropWhile_false isPySpace _ c hc

/-- On a list with clean ends the strip is the identity. -/
theorem pyStrip_eq_self (l : List Char) (h : StripClean l) : pyStrip l = l := by
  unfold pyStrip
  rw [dropWhile_eq_self_of_head isPySpace l h.1,
    dropWhile_eq_self_of_head isPySpace l.reverse
      (fun c hc => h.2 c (by rwa [List.head?_reverse] at hc)),
    List.reverse_reverse]

/-- The relation `noTwoSpaces` is symmetric. -/
theorem noTwoSpaces_symm (a b : Char) (h : noTwoSpaces a b) : noTwoSpaces b a := by
  rintro ⟨h1, h2⟩
  exact h ⟨h2, h1⟩

/-- A chain survives reversal for the symmetric `noTwoSpaces`. -/
theorem chain_noTwoSpaces_reverse (l : List Char)
    (h : List.Chain' noTwoSpaces l) : List.Chain' noTwoSpaces l.reverse := by
  rw [List.chain'_reverse]
  exact h.imp noTwoSpaces_symm

/-- A chain restricts to the `dropWhile` tail. -/
theorem chain_dropWhile (p : Char → Bool) (l : List Char)
    (h : List.Chain' noTwoSpaces l) :
    List.Chain' noTwoSpaces (l.dropWhile p) := by
  have hdec := List.takeWhile_append_dropWhile p l
  have := List.chain'_append.mp (hdec ▸ h)
  exact this.2.1

/-- The strip preserves the no-adjacent-whitespace chain. -/
theorem pyStrip_chain (l : List Char) (h : List.Chain' noTwoSpaces l) :
    List.Chain' noTwoSpaces (pyStrip l) := by
  unfold pyStrip
  exact chain_noTwoSpaces_reverse _
    (chain_dropWhile isPySpace _ (chain_noTwoSpaces_reverse _ (chain_dropWhile isPySpace l h)))

/-- Characters of the collapse output come from its input or are
spaces. -/
theorem collapse_mem (l : List Char) (c : Char) (h : c ∈ collapseWs l) :
    c ∈ l ∨ c = ' ' :=
  mem_squeezeF l.length l c (pyStrip_mem _ c h)

/-- The collapse output is squeezed. -/
theorem collapse_squeezed (l : List Char) : Squeezed (collapseWs l) := by
  constructor
  · intro c hc hsp
    exact squeezeF_space_blank l.length l (Nat.le_refl _) c (pyStrip_mem _ c hc) hsp
  · exact pyStrip_chain _ (squeezeF_chain l.length l (Nat.le_refl _))

/-- The collapse output has clean ends. -/
theorem collapse_stripclean (l : List Char) : StripClean (collapseWs l) :=
  ⟨pyStrip_head_nonspace _, pyStrip_getLast_nonspace _⟩

/-- On squeezed, end-clean input the collapse is the identity. -/
theorem collapse_eq_self (l : List Char) (h1 : Squeezed l) (h2 : StripClean l) :
    collapseWs l = l := by
  unfold collapseWs
  rw [squeezeF_eq_self l h1 l.length (Nat.le_refl _), pyStrip_eq_self l h2]

/-- The collapse is idempotent. -/
theorem collapse_idem (l : List Char) :
    collapseWs (collapseWs l) = collapseWs l :=
  collapse_eq_self _ (collapse_squeezed l) (collapse_stripclean l)

/-- With no fuel the username pass returns its input. -/
theorem usrSubF_zero (l : List Char) : usrSubF 0 l = l := by
  cases l <;> rfl

/-- The username pass of the empty list is empty. -/
theorem usrSubF_nil (fuel : Nat) : usrSubF fuel [] = [] := by
  cases fuel <;> rfl

/-- The username pass returns an empty list only on an empty list. -/
theorem usrSubF_eq_nil (fuel : Nat) (l : List Char)
    (h : usrSubF fuel l = []) : l = [] := by
  cases fuel with
  | zero => rw [usrSubF_zero] at h; exact h
  | succ n =>
    cases l with
    | nil => rfl
    | cons c cs =>
      rw [usrSubF] at h
      split at h
      · cases h
      · cases h

/-- Unfolding of `countWhile` on a cons. -/
theorem countWhile_cons (p : Char → Bool) (e : Char) (es : List Char) :
    countWhile p (e :: es) = if p e then countWhile p es + 1 else 0 := by
  simp only [countWhile, List.takeWhile_cons]
  split <;> simp

/-- Characters of the username-pass output come from the input or from
the `<usr>` token. -/
theorem mem_usrSubF (fuel : Nat) :
    ∀ (l : List Char) (c : Char), c ∈ usrSubF fuel l → c ∈ l ∨ c ∈ usrToken := by
  induction fuel with
  | zero =>
    intro l c hc
    rw [usrSubF_zero] at hc
    exact Or.inl hc
  | succ n ih =>
    intro l c hc
    cases l with
    | nil => cases hc
    | cons d ds =>
      rw [usrSubF] at hc
      split at hc
      · rcases List.mem_append.mp hc with h | h
        · exact Or.inr h
        · rcases ih _ c h with h' | h'
          · exact Or.inl (List.mem_cons_of_mem d (List.mem_of_mem_drop h'))
          · exact Or.inr h'
      · rcases List.mem_cons.mp hc with rfl | h
        · exact Or.inl (List.mem_cons_self _ _)
        · rcases ih _ c h with h' | h'
          · exact Or.inl (List.mem_cons_of_mem d h')
          · exact Or.inr h'

/-- The head of the username-pass output is `<` or the input head. -/
theorem usrSubF_head (fuel : Nat) (l : List Char) (c : Char)
    (hc : (usrSubF fuel l).head? = some c) : c = '<' ∨ l.head? = some c := by
  cases fuel with
  | zero => rw [usrSubF_zero] at hc; exact Or.inr hc
  | succ n =>
    cases l with
    | nil => cases hc
    | cons d ds =>
      rw [usrSubF] at hc
      split at hc
      · cases hc
        exact Or.inl rfl
      · cases hc
        exact Or.inr rfl

/-- A nonempty suffix shares its last element with the whole list. -/
theorem getLast?_suffix (S M : List Char) (h : List.IsSuffix S M)
    (hS : S ≠ []) : S.getLast? = M.getLast? := by
  obtain ⟨t, rfl⟩ := h
  exact (List.getLast?_append_of_ne_nil t hS).symm

/-- The last element of a cons with nonempty tail. -/
theorem getLast?_cons_ne_nil (d : Char) (ds : List Char) (h : ds ≠ []) :
    (d :: ds).getLast? = ds.getLast? := by
  cases ds with
  | nil => exact absurd rfl h
  | cons e es => exact List.getLast?_cons_cons

/-- The last character of the username-pass output is `>` or the input's
last character. -/
theorem usrSubF_getLast (fuel : Nat) :
    ∀ (l : List Char) (c : Char), (usrSubF fuel l).getLast? = some c →
      c = '>' ∨ l.getLast? = some c := by
  induction fuel with
  | zero =>
    intro l c hc
    rw [usrSubF_zero] at hc
    exact Or.inr hc
  | succ n ih =>
    intro l c hc
    cases l with
    | nil => cases hc
    | cons d ds =>
      rw [usrSubF] at hc
      split at hc
      · next hcond =>
        by_cases hX : usrSubF n (ds.drop (countWhile isWordDot ds)) = []
        · rw [hX, List.append_nil] at hc
          cases hc
          exact Or.inl rfl
        · rw [List.getLast?_append_of_ne_nil _ hX] at hc
          rcases ih _ c hc with h | h
          · exact Or.inl h
          · have hdrop : ds.drop (countWhile isWordDot ds) ≠ [] := by
              intro hnil
              rw [hnil] at hX
              exact hX (usrSubF_nil n)
            have hds : ds ≠ [] := by
              intro hnil
              subst hnil
              exact hcond.2 rfl
            rw [getLast?_suffix _ ds (List.drop_suffix _ ds) hdrop] at h
            rw [getLast?_cons_ne_nil d ds hds]
            exact Or.inr h
      · by_cases hX : usrSubF n ds = []
        · have hds : ds = [] := usrSubF_eq_nil n ds hX
          subst hds
          rw [hX] at hc
          cases hc
          exact Or.inr rfl
        · rw [getLast?_cons_ne_nil d _ hX] at hc
          rcases ih _ c hc with h | h
          · exact Or.inl h
          · have hds : ds ≠ [] := by
              intro hnil
              subst hnil
              exact hX (usrSubF_nil n)
            rw [getLast?_cons_ne_nil d ds hds]
            exact Or.inr h

/-- The `<usr>` token contains no replaceable `@`. -/
theorem usrToken_atChain :
    List.Chain' (fun a b => a = '@' → isWordDot b = false) usrToken :=
  List.Chain'.cons (fun h => absurd h (by decide))
    (List.Chain'.cons (fun h => absurd h (by decide))
      (List.Chain'.cons (fun h => absurd h (by decide))
        (List.Chain'.cons (fun h => absurd h (by decide))
          (List.chain'_singleton '>'))))

/-- The `<usr>` token contains no whitespace pair. -/
theorem usrToken_spaceChain : List.Chain' noTwoSpaces usrToken :=
  List.Chain'.cons (fun h => absurd h.1 (by decide))
    (List.Chain'.cons (fun h => absurd h.1 (by decide))
      (List.Chain'.cons (fun h => absurd h.1 (by decide))
        (List.Chain'.cons (fun h => absurd h.1 (by decide))
          (List.chain'_singleton '>'))))

/-- No character of the `<usr>` token is whitespace. -/
theorem usrToken_nonspace : ∀ c ∈ usrToken, isPySpace c = false := by
  decide

/-- The username-pass output has no `@` followed by a class
character. -/
theorem usrSubF_atClean (fuel : Nat) :
    ∀ (l : List Char), l.length ≤ fuel → AtClean (usrSubF fuel l) := by
  induction fuel with
  | zero =>
    intro l hlen
    rw [Nat.le_zero, List.length_eq_zero] at hlen
    subst hlen
    exact List.chain'_nil
  | succ n ih =>
    intro l hlen
    cases l with
    | nil => exact List.chain'_nil
    | cons d ds =>
      rw [List.length_cons] at hlen
      by_cases hcond : d = '@' ∧ countWhile isWordDot ds ≠ 0
      · rw [usrSubF, if_pos hcond]
        apply List.chain'_append.mpr
        refine ⟨usrToken_atChain, ih _ ?_, ?_⟩
        · rw [List.length_drop]
          omega
        · intro a ha b hb hab
          have : a = '>' := by
            cases ha
            rfl
          rw [this] at hab
          exact absurd hab (by decide)
      · rw [usrSubF, if_neg hcond]
        apply List.chain'_cons'.mpr
        refine ⟨?_, ih ds (by omega)⟩
        intro b hb hd
        subst hd
        have hk : countWhile isWordDot ds = 0 := by
          by_contra hk'
          exact hcond ⟨rfl, hk'⟩
        rcases usrSubF_head n ds b (Option.mem_def.mp hb) with rfl | hhead
        · decide
        · cases ds with
          | nil => cases hhead
          | cons e es =>
            cases hhead
            rw [countWhile_cons] at hk
            split at hk
            · cases hk
            · next he => exact Bool.eq_false_iff.mpr he

/-- A chain restricts to the right part of an append. -/
theorem chain_right (R : Char → Char → Prop) (a b : List Char)
    (h : List.Chain' R (a ++ b)) : List.Chain' R b :=
  (List.chain'_append.mp h).2.1

/-- The tail of a squeezed list is squeezed. -/
theorem squeezed_tail (c : Char) (cs : List Char) (h : Squeezed (c :: cs)) :
    Squeezed cs :=
  ⟨fun d hd => h.1 d (List.mem_cons_of_mem c hd), (List.chain'_cons'.mp h.2).2⟩

/-- Dropping a prefix of a squeezed list leaves a squeezed list. -/
theorem squeezed_drop (l : List Char) (k : Nat) (h : Squeezed l) :
    Squeezed (l.drop k) := by
  refine ⟨fun d hd => h.1 d (List.mem_of_mem_drop hd), ?_⟩
  have hdec := List.take_append_drop k l
  exact chain_right _ _ _ (hdec ▸ h.2)

/-- The username pass keeps whitespace characters plain spaces. -/
theorem usrSubF_blank (fuel : Nat) (l : List Char)
    (hb : ∀ c ∈ l, isPySpace c = true → c = ' ') :
    ∀ c ∈ usrSubF fuel l, isPySpace c = true → c = ' ' := by
  intro c hc hsp
  rcases mem_usrSubF fuel l c hc with h | h
  · exact hb c h hsp
  · rw [usrToken_nonspace c h] at hsp
    cases hsp

/-- The username pass preserves the no-adjacent-whitespace chain. -/
theorem usrSubF_spaceChain (fuel : Nat) :
    ∀ (l : List Char), Squeezed l → l.length ≤ fuel →
      List.Chain' noTwoSpaces (usrSubF fuel l) := by
  induction fuel with
  | zero =>
    intro l _ hlen
    rw [Nat.le_zero, List.length_eq_zero] at hlen
    subst hlen
    exact List.chain'_nil
  | succ n ih =>
    intro l hsq hlen
    cases l with
    | nil => exact List.chain'_nil
    | cons d ds =>
      rw [List.length_cons] at hlen
      by_cases hcond : d = '@' ∧ countWhile isWordDot ds ≠ 0
      · rw [usrSubF, if_pos hcond]
        apply List.chain'_append.mpr
        refine ⟨usrToken_spaceChain, ?_, ?_⟩
        · refine ih _ (squeezed_drop ds _ (squeezed_tail d ds hsq)) ?_
          rw [List.length_drop]
          omega
        · intro a ha b _
          have haeq : a = '>' := by
            cases ha
            rfl
          subst haeq
          rintro ⟨h1, _⟩
          cases h1
      · rw [usrSubF, if_neg hcond]
        apply List.chain'_cons'.mpr
        refine ⟨?_, ih ds (squeezed_tail d ds hsq) (by omega)⟩
        intro b hb
        by_cases hd : isPySpace d = true
        · have hbns : isPySpace b = false := by
            rcases usrSubF_head n ds b (Option.mem_def.mp hb) with rfl | hhead
            · rfl
            · cases ds with
              | nil => cases hhead
              | cons e es =>
                cases hhead
                have hrel := (List.chain'_cons'.mp hsq.2).1 b (Option.mem_def.mpr rfl)
                cases hfe : isPySpace b
                · rfl
                · exact absurd ⟨hd, hfe⟩ hrel
          rintro ⟨_, h2⟩
          rw [hbns] at h2
          cases h2
        · rintro ⟨h1, _⟩
          exact hd h1

/-- The username pass preserves clean ends. -/
theorem usrSubF_stripClean (fuel : Nat) (l : List Char) (h : StripClean l) :
    StripClean (usrSubF fuel l) := by
  constructor
  · intro c hc
    rcases usrSubF_head fuel l c hc with rfl | hhead
    · rfl
    · exact h.1 c hhead
  · intro c hc
    rcases usrSubF_getLast fuel l c hc with rfl | hlast
    · rfl
    · exact h.2 c hlast

/-- Wrapper form: without openers the bracket pass is the identity. -/
theorem bracketSub_eq_self (l : List Char) (h : ∀ c ∈ l, isOpener c = false) :
    bracketSub l = l :=
  bracketSubF_eq_self l h l.length

/-- Wrapper form: without digits the resolution pass is the identity. -/
theorem resSub_eq_self (l : List Char) (h : ∀ c ∈ l, c.isDigit = false) :
    resSub l = l :=
  resSubF_eq_self l h l.length

/-- Wrapper form: with no replaceable `@` the username pass is the
identity. -/
theorem usrSub_eq_self (l : List Char) (h : AtClean l) : usrSub l = l :=
  usrSubF_eq_self l h l.length

/-- The space character is tame and `toLower`-fixed. -/
theorem tame_space : TameChar ' ' := by decide

/-- Every `<usr>` character is tame. -/
theorem tame_usrToken : ∀ c ∈ usrToken, TameChar c := by decide

/-- Every `<usr>` character is `toLower`-fixed. -/
theorem lower_fix_usrToken : ∀ c ∈ usrToken, c.toLower = c := by decide

/-- Claim C3, amended.  Caption sanitization is idempotent on every
input all of whose characters are printable ASCII (U+0020 to U+007E)
and are not ampersands, digits, or opening brackets (`[`, `(`):
`sanitize(sanitize x) = sanitize x` for such `x`.  On this domain the
external `ftfy.fix_text` is the identity (no HTML entities without `&`,
no control characters, nothing non-ASCII), so the model is exact.
(Unrestricted idempotence is false — see the counterexample: a newline
blocks the bracket regex in the first pass and is collapsed into a
matchable space; digits re-joined by a removal, non-ASCII characters
deleted by the final ASCII step, or `fix_text`'s entity unescaping of
`&amp;`-style input, similarly make the passes differ.) -/
theorem sanitize_idempotent_on_tame (x : String)
    (h : ∀ c ∈ x.toList, TameChar c) :
    sanitizeCaption (sanitizeCaption x) = sanitizeCaption x := by
  have hl0tame : ∀ c ∈ x.toList.map Char.toLower, TameChar c := by
    intro c hc
    rw [List.mem_map] at hc
    obtain ⟨d, hd, rfl⟩ := hc
    exact tame_toLower d (h d hd)
  have hl0fix : ∀ c ∈ x.toList.map Char.toLower, c.toLower = c := by
    intro c hc
    rw [List.mem_map] at hc
    obtain ⟨d, _, rfl⟩ := hc
    exact toLower_toLower d
  set l0 := x.toList.map Char.toLower with hl0
  set m := collapseWs l0 with hm
  have hmtame : ∀ c ∈ m, TameChar c := by
    intro c hc
    rcases collapse_mem l0 c hc with h' | rfl
    · exact hl0tame c h'
    · exact tame_space
  have hmfix : ∀ c ∈ m, c.toLower = c := by
    intro c hc
    rcases collapse_mem l0 c hc with h' | rfl
    · exact hl0fix c h'
    · decide
  have hcm : collapseWs m = m := by
    rw [hm]
    exact collapse_idem l0
  have hpass1 : sanitizeCaption x = String.mk (asciiOnly (usrSub m)) := by
    show String.mk (asciiOnly (usrSub (collapseWs (resSub
      (collapseWs (bracketSub (x.toList.map Char.toLower))))))) =
      String.mk (asciiOnly (usrSub m))
    rw [← hl0, bracketSub_eq_self l0 (fun c hc => (hl0tame c hc).2.2.2), ← hm,
      resSub_eq_self m (fun c hc => (hmtame c hc).2.2.1), hcm]
  set y := usrSub m with hy
  have hytame : ∀ c ∈ y, TameChar c := by
    intro c hc
    rcases mem_usrSubF m.length m c hc with h' | h'
    · exact hmtame c h'
    · exact tame_usrToken c h'
  have hyfix : ∀ c ∈ y, c.toLower = c := by
    intro c hc
    rcases mem_usrSubF m.length m c hc with h' | h'
    · exact hmfix c h'
    · exact lower_fix_usrToken c h'
  have hasc : asciiOnly y = y :=
    asciiOnly_eq_self y (fun c hc => by have hr := (hytame c hc).1; omega)
  have hSx : sanitizeCaption x = String.mk y := by
    rw [hpass1, hasc]
  have hysq : Squeezed y := by
    refine ⟨usrSubF_blank m.length m (collapse_squeezed l0).1, ?_⟩
    exact usrSubF_spaceChain m.length m (collapse_squeezed l0) (Nat.le_refl _)
  have hysc : StripClean y :=
    usrSubF_stripClean m.length m (collapse_stripclean l0)
  have hyat : AtClean y := usrSubF_atClean m.length m (Nat.le_refl _)
  have hylow : y.map Char.toLower = y := map_toLower_fix y hyfix
  have hycol : collapseWs y = y := collapse_eq_self y hysq hysc
  have hpass2 : sanitizeCaption (String.mk y) = String.mk y := by
    show String.mk (asciiOnly (usrSub (collapseWs (resSub
      (collapseWs (bracketSub ((String.mk y).toList.map Char.toLower))))))) =
      String.mk y
    have hdata : (String.mk y).toList = y := rfl
    rw [hdata, hylow, bracketSub_eq_self y (fun c hc => (hytame c hc).2.2.2),
      hycol, resSub_eq_self y (fun c hc => (hytame c hc).2.2.1), hycol,
      usrSub_eq_self y hyat,
      asciiOnly_eq_self y (fun c hc => by have hr := (hytame c hc).1; omega)]
  rw [hSx, hpass2]

/-- Witness for `sanitize_idempotent_on_tame` on a concrete tame
caption. -/
theorem sanitize_idempotent_on_tame_witness :
    sanitizeCaption (sanitizeCaption "Hello World") =
      sanitizeCaption "Hello World" :=
  sanitize_idempotent_on_tame "Hello World" (by decide)

/-- Claim C3, counterexample.  Sanitization is not idempotent: on input
`"(\n)"` the newline blocks the bracket regex (`.` does not match a
newline), whitespace collapsing then turns the newline into a plain
space, and the second pass removes the now-matching `"( )"`. -/
theorem sanitize_not_idempotent :
    sanitizeCaption (sanitizeCaption "(\n)") ≠ sanitizeCaption "(\n)" ∧
    sanitizeCaption "(\n)" = "( )" ∧
    sanitizeCaption (sanitizeCaption "(\n)") = "" := by
  decide

/-- Keys after an upsert: the old keys plus possibly `k`. -/
theorem mem_keys_upsert (m : List (String × AnnRecord)) (k : String)
    (v : AnnRecord) (x : String) :
    x ∈ (upsert m k v).map Prod.fst ↔ x ∈ m.map Prod.fst ∨ x = k := by
  induction m with
  | nil => simp [upsert]
  | cons p rest ih =>
    obtain ⟨k', v'⟩ := p
    by_cases hk : k' = k
    · subst hk
      simp [upsert, or_assoc]
      tauto
    · simp only [upsert, if_neg hk, List.map_cons, List.mem_cons, ih]
      tauto

/-- Upsert on a matching head key replaces the value in place. -/
theorem upsert_cons_pos (k : String) (v v' : AnnRecord)
    (rest : List (String × AnnRecord)) :
    upsert ((k, v') :: rest) k v = (k, v) :: rest := by
  simp [upsert]

/-- Upsert on a non-matching head key recurses. -/
theorem upsert_cons_neg (k k' : String) (hk : k' ≠ k) (v v' : AnnRecord)
    (rest : List (String × AnnRecord)) :
    upsert ((k', v') :: rest) k v = (k', v') :: upsert rest k v := by
  simp [upsert, hk]

/-- Upserting a coherent binding preserves the dict invariant. -/
theorem upsert_keyInv (m : List (String × AnnRecord)) (k : String)
    (v : AnnRecord) (hm : KeyInv m) (hv : v.image_id = k) :
    KeyInv (upsert m k v) := by
  induction m with
  | nil =>
    exact ⟨List.nodup_singleton k, by simp [upsert, hv]⟩
  | cons p rest ih =>
    obtain ⟨k', v'⟩ := p
    obtain ⟨hnd, hco⟩ := hm
    rw [List.map_cons, List.nodup_cons] at hnd
    have hrest : KeyInv rest := ⟨hnd.2, fun q hq => hco q (List.mem_cons_of_mem _ hq)⟩
    by_cases hk : k' = k
    · subst hk
      rw [upsert_cons_pos]
      refine ⟨?_, ?_⟩
      · rw [List.map_cons, List.nodup_cons]
        exact ⟨hnd.1, hnd.2⟩
      · intro q hq
        rcases List.mem_cons.mp hq with rfl | hq
        · exact hv
        · exact hco q (List.mem_cons_of_mem _ hq)
    · rw [upsert_cons_neg k k' hk]
      obtain ⟨ihnd, ihco⟩ := ih hrest
      refine ⟨?_, ?_⟩
      · rw [List.map_cons, List.nodup_cons]
        refine ⟨?_, ihnd⟩
        intro hmem
        rcases (mem_keys_upsert rest k v k').mp hmem with h | h
        · exact hnd.1 h
        · exact hk h
      · intro q hq
        rcases List.mem_cons.mp hq with rfl | hq
        · exact hco (k', v') (List.mem_cons_self _ _)
        · exact ihco q hq

/-- Building the id-keyed dict from any coherent accumulator keeps the
invariant. -/
theorem foldl_upsert_keyInv (anns : List AnnRecord) :
    ∀ (m : List (String × AnnRecord)), KeyInv m →
      KeyInv (anns.foldl (fun m a => upsert m a.image_id a) m) := by
  induction anns with
  | nil => intro m hm; exact hm
  | cons a rest ih =>
    intro m hm
    exact ih _ (upsert_keyInv m a.image_id a hm rfl)

/-- The dict `annotationsMap` satisfies the dict invariant. -/
theorem annotationsMap_keyInv (anns : List AnnRecord) :
    KeyInv (annotationsMap anns) :=
  foldl_upsert_keyInv anns [] ⟨List.nodup_nil, by simp⟩

/-- A successful pop returns a sublist of the dict. -/
theorem popKey_sublist (m : List (String × AnnRecord)) (k : String)
    (m' : List (String × AnnRecord)) (h : popKey m k = some m') :
    List.Sublist m' m := by
  induction m generalizing m' with
  | nil => simp [popKey] at h
  | cons p rest ih =>
    obtain ⟨k', v⟩ := p
    by_cases hk : k' = k
    · simp only [popKey, if_pos hk, Option.some.injEq] at h
      subst h
      exact List.sublist_cons_self _ _
    · simp only [popKey, if_neg hk, Option.map_eq_some'] at h
      obtain ⟨r', hr', rfl⟩ := h
      exact List.Sublist.cons₂ _ (ih r' hr')

/-- A successful pop preserves the dict invariant. -/
theorem popKey_keyInv (m : List (String × AnnRecord)) (k : String)
    (m' : List (String × AnnRecord)) (h : popKey m k = some m')
    (hm : KeyInv m) : KeyInv m' := by
  have hsub := popKey_sublist m k m' h
  exact ⟨List.Nodup.sublist (hsub.map Prod.fst) hm.1,
    fun p hp => hm.2 p (hsub.subset hp)⟩

/-- Popping every id in turn preserves the dict invariant. -/
theorem foldlM_popKey_keyInv (ids : List String) :
    ∀ (m m' : List (String × AnnRecord)),
      ids.foldlM (fun m i => popKey m i) m = some m' → KeyInv m → KeyInv m' := by
  induction ids with
  | nil =>
    intro m m' h hm
    simp only [List.foldlM_nil] at h
    cases h
    exact hm
  | cons i rest ih =>
    intro m m' h hm
    simp only [List.foldlM_cons, Option.bind_eq_bind, Option.bind_eq_some] at h
    obtain ⟨m1, hm1, hrest⟩ := h
    exact ih m1 m' hrest (popKey_keyInv m i m1 hm1 hm)

/-- Under the dict invariant, the values' ids are exactly the keys. -/
theorem values_map_image_id (m : List (String × AnnRecord)) (hm : KeyInv m) :
    (m.map Prod.snd).map (fun a => a.image_id) = m.map Prod.fst := by
  rw [List.map_map]
  exact List.map_congr_left (fun p hp => hm.2 p hp)

/-- Sorting the values of a coherent dict yields a list that is sorted
by `created_utc` and has pairwise-distinct `image_id`s. -/
theorem sorted_nodup_of_keyInv (m : List (String × AnnRecord)) (hm : KeyInv m) :
    List.Sorted annLE (sortAnns (m.map Prod.snd)) ∧
      ((sortAnns (m.map Prod.snd)).map (fun a => a.image_id)).Nodup := by
  constructor
  · exact List.sorted_insertionSort annLE _
  · have hperm : List.Perm
        ((sortAnns (m.map Prod.snd)).map (fun a => a.image_id))
        ((m.map Prod.snd).map (fun a => a.image_id)) :=
      (List.perm_insertionSort annLE _).map _
    rw [hperm.nodup_iff, values_map_image_id m hm]
    exact hm.1

/-- Claim C4. After any completed `remove`
(`_remove_images_and_annotations`) and after any written `merge`, the
output record list is non-decreasing in `created_utc` and its
`image_id`s are pairwise distinct. -/
theorem store_mutation_invariant :
    (∀ (anns : List AnnRecord) (ids : List String) (out : List AnnRecord),
      removeAnnotations anns ids = some out →
      List.Sorted annLE out ∧ (out.map (fun a => a.image_id)).Nodup) ∧
    (∀ (version : String) (stores : List Store) (delete_old : Bool) (m : Store),
      merge version stores delete_old = .wrote m →
      List.Sorted annLE m.annotations ∧
        (m.annotations.map (fun a => a.image_id)).Nodup) := by
  constructor
  · intro anns ids out h
    simp only [removeAnnotations, Option.map_eq_some'] at h
    obtain ⟨mm, hmm, rfl⟩ := h
    exact sorted_nodup_of_keyInv mm
      (foldlM_popKey_keyInv ids _ mm hmm (annotationsMap_keyInv anns))
  · intro version stores delete_old m h
    rcases stores with _ | ⟨s0, _ | ⟨s1, rest⟩⟩
    · simp [merge] at h
    · simp [merge] at h
    · rw [merge] at h
      split at h
      · exact absurd h (by simp)
      · injection h with h'
        rw [← h']
        exact sorted_nodup_of_keyInv _ (annotationsMap_keyInv _)

/-- Witness for `store_mutation_invariant`: removing `"aaa111"` from a
concrete two-record store leaves a sorted, duplicate-free list. -/
theorem store_mutation_invariant_witness :
    List.Sorted annLE [exAnn2] ∧ ([exAnn2].map (fun a => a.image_id)).Nodup :=
  store_mutation_invariant.1 [exAnn1, exAnn2] ["aaa111"] [exAnn2] (by decide)

/-- Exact coverage and disjointness of the recursively split windows,
for every split shape and every window. -/
theorem windowsSpec (t : SplitTree) (s d : ℚ) :
    (∀ x : ℚ, coveredBy (windows t s d) x ↔ s ≤ x ∧ x < s + d) ∧
      List.Pairwise windowDisjoint (windows t s d) := by
  induction t generalizing s d with
  | leaf =>
    constructor
    · intro x
      simp [coveredBy, windows, inWindow]
    · simp [windows]
  | node lt rt ihl ihr =>
    have hl := ihl s (d / 2)
    have hr := ihr (s + d / 2) (d / 2)
    constructor
    · intro x
      rw [windows]
      constructor
      · rintro ⟨w, hw, hx⟩
        rcases List.mem_append.mp hw with h | h
        · have hx' := (hl.1 x).mp ⟨w, h, hx⟩
          exact ⟨hx'.1, by linarith [hx'.2]⟩
        · have hx' := (hr.1 x).mp ⟨w, h, hx⟩
          exact ⟨by linarith [hx'.1], by linarith [hx'.2]⟩
      · rintro ⟨h1, h2⟩
        by_cases hc : x < s + d / 2
        · obtain ⟨w, hw, hx⟩ := (hl.1 x).mpr ⟨h1, hc⟩
          exact ⟨w, List.mem_append_left _ hw, hx⟩
        · push_neg at hc
          obtain ⟨w, hw, hx⟩ := (hr.1 x).mpr ⟨hc, by linarith⟩
          exact ⟨w, List.mem_append_right _ hw, hx⟩
    · rw [windows]
      refine List.pairwise_append.mpr ⟨hl.2, hr.2, ?_⟩
      intro u hu v hv x hx
      have h1 := (hl.1 x).mp ⟨u, hu, hx.1⟩
      have h2 := (hr.1 x).mp ⟨v, hv, hx.2⟩
      linarith [h1.2, h2.1]

/-- Claim C2. For every harvest window start `s`, window size
`d ∈ (0, 24]` hours, and split shape induced by the page cap, the query
windows issued by `RedditIdDownloader._download_worker` — the window
itself when the cap is not hit, otherwise the two recursively halved
sub-windows split at `s + d/2` — exactly cover the original interval
`[s, s+d)`: an instant is covered iff it lies in `[s, s+d)`, and
distinct issued windows share no instant. -/
theorem window_split_exact_cover (t : SplitTree) (s d : ℚ)
    (hd : 0 < d) (hd24 : d ≤ 24) :
    (∀ x : ℚ, coveredBy (windows t s d) x ↔ s ≤ x ∧ x < s + d) ∧
      List.Pairwise windowDisjoint (windows t s d) :=
  windowsSpec t s d

/-- Witness for `window_split_exact_cover` at a concrete split shape,
window and instant. -/
theorem window_split_exact_cover_witness :
    coveredBy (windows (.node .leaf (.node .leaf .leaf)) 0 24) 17 :=
  ((window_split_exact_cover (.node .leaf (.node .leaf .leaf)) 0 24
    (by norm_num) (by norm_num)).1 17).mpr (by norm_num)

/-- A list starts with itself followed by anything. -/
theorem pyStartsWith_append (p r : List Char) : pyStartsWith p (p ++ r) = true := by
  induction p with
  | nil => rfl
  | cons c cs ih => simp [pyStartsWith, ih]

/-- Appending `pat` makes `pat` a suffix. -/
theorem pyEndsWith_append (pat l : List Char) : pyEndsWith pat (l ++ pat) = true := by
  unfold pyEndsWith
  rw [List.reverse_append]
  exact pyStartsWith_append _ _

/-- Claim C8, amended. The three normalization scenarios hold:
`"https://imgur.com/aBcD12"` maps to `"https://i.imgur.com/aBcD12.jpg"`,
`"https://m.imgur.com/aBcD12.jpg"` maps to the same, and
`"https://i.imgur.com/x.jpg"` is returned unchanged; and for every plain
post URL the result ends in `.jpg`.  (The claim's stronger reading —
exactly one `.jpg` suffix, any existing suffix stripped first — fails:
see the counterexample.) -/
theorem fix_image_url_normalization :
    fixImageUrlDirect "https://imgur.com/aBcD12" = some "https://i.imgur.com/aBcD12.jpg" ∧
    fixImageUrlDirect "https://m.imgur.com/aBcD12.jpg" = some "https://i.imgur.com/aBcD12.jpg" ∧
    fixImageUrlDirect "https://i.imgur.com/x.jpg" = some "https://i.imgur.com/x.jpg" ∧
    ∀ url : List Char, isPlainPostUrl url = true →
      ∃ res, fixImageUrlBranch url = .ret res ∧ pyEndsWith ".jpg".toList res = true := by
  refine ⟨by decide, by decide, by decide, ?_⟩
  intro url h
  simp only [isPlainPostUrl, Bool.and_eq_true, Bool.not_eq_true'] at h
  obtain ⟨h1, h2, h3⟩ := h
  simp only [show "i.imgur.com".toList = ['i', '.', 'i', 'm', 'g', 'u', 'r', '.', 'c', 'o', 'm'] from rfl,
    show "m.imgur.com".toList = ['m', '.', 'i', 'm', 'g', 'u', 'r', '.', 'c', 'o', 'm'] from rfl,
    show "imgur.com".toList = ['i', 'm', 'g', 'u', 'r', '.', 'c', 'o', 'm'] from rfl,
    show "/a/".toList = ['/', 'a', '/'] from rfl,
    show "gallery".toList = ['g', 'a', 'l', 'l', 'e', 'r', 'y'] from rfl] at h1 h2 h3
  refine ⟨pyReplace ".jpg".toList []
      (pyReplace "imgur".toList "i.imgur".toList
        (pyReplace "m.imgur.com".toList "imgur.com".toList url)) ++ ".jpg".toList,
    ?_, pyEndsWith_append ".jpg".toList _⟩
  simp [fixImageUrlBranch, h1, h2, h3]

/-- Witness for `fix_image_url_normalization` at a concrete plain post
URL. -/
theorem fix_image_url_normalization_witness :
    ∃ res, fixImageUrlBranch "https://imgur.com/aBcD12".toList = .ret res ∧
      pyEndsWith ".jpg".toList res = true :=
  fix_image_url_normalization.2.2.2 "https://imgur.com/aBcD12".toList (by decide)

/-- Claim C8, counterexample. `"https://imgur.com/.j.jpgpg"` is classified
as a plain post URL, yet its normalization ends in two stacked `.jpg`
suffixes: `str.replace(".jpg", "")` removes every occurrence (and the
removals can splice a new `.jpg` together) instead of stripping one
suffix.  Moreover an existing `.png` suffix is not stripped before
`.jpg` is appended. -/
theorem fix_image_url_suffix_counterexample :
    isPlainPostUrl "https://imgur.com/.j.jpgpg".toList = true ∧
    fixImageUrlDirect "https://imgur.com/.j.jpgpg" = some "https://i.imgur.com/.jpg.jpg" ∧
    pyEndsWith ".jpg.jpg".toList "https://i.imgur.com/.jpg.jpg".toList = true ∧
    fixImageUrlDirect "https://imgur.com/abc.png" = some "https://i.imgur.com/abc.png.jpg" := by
  decide

/-- Claim C7, amended. Every failing step of the album resolution — a
raising request, a malformed or dataless body, an unreadable
`UserRemaining` header, an unreadable `UserReset` header when the user
quota is ≤ 3, an unreadable `ClientRemaining` header — yields the
sentinel `"https://i.imgur.com/removed.png"` and the batch continues.
When the preceding steps succeed and the client-remaining header parses
to a value ≤ 500, the run aborts, and the abort is not swallowed by the
`except Exception:` handler (`SystemExit` does not derive from
`Exception`); with a value above 500 the extracted link is returned.
(The claim's stronger reading — quota ≤ 500 always aborts — fails when
an earlier step raises first: see the counterexample.) -/
theorem imgur_album_resolution_spec :
    (fixAlbumUrl .fail = .continueWith removedSentinel) ∧
    (∀ hs : ImgurHeaders, fixAlbumUrl (.success none hs) = .continueWith removedSentinel) ∧
    (∀ link rs cr, fixAlbumUrl (.success (some link) ⟨none, rs, cr⟩) =
      .continueWith removedSentinel) ∧
    (∀ link u cr, u ≤ 3 → fixAlbumUrl (.success (some link) ⟨some u, none, cr⟩) =
      .continueWith removedSentinel) ∧
    (∀ link u rs, (u ≤ 3 → rs ≠ none) →
      fixAlbumUrl (.success (some link) ⟨some u, rs, none⟩) =
        .continueWith removedSentinel) ∧
    (∀ link u rs c, (u ≤ 3 → rs ≠ none) → c ≤ 500 →
      fixAlbumUrl (.success (some link) ⟨some u, rs, some c⟩) = .abortRun) ∧
    (∀ link u rs c, (u ≤ 3 → rs ≠ none) → 500 < c →
      fixAlbumUrl (.success (some link) ⟨some u, rs, some c⟩) = .continueWith link) := by
  refine ⟨rfl, fun hs => rfl, fun link rs cr => rfl, ?_, ?_, ?_, ?_⟩
  · intro link u cr hu
    simp [fixAlbumUrl, albumTryBody, hu]
  · intro link u rs h
    by_cases hu : u ≤ 3
    · obtain ⟨r, hr⟩ := Option.ne_none_iff_exists'.mp (h hu)
      simp [fixAlbumUrl, albumTryBody, hu, hr, clientCheck]
    · simp [fixAlbumUrl, albumTryBody, hu, clientCheck]
  · intro link u rs c h hc
    by_cases hu : u ≤ 3
    · obtain ⟨r, hr⟩ := Option.ne_none_iff_exists'.mp (h hu)
      simp [fixAlbumUrl, albumTryBody, hu, hr, clientCheck, hc]
    · simp [fixAlbumUrl, albumTryBody, hu, clientCheck, hc]
  · intro link u rs c h hc
    by_cases hu : u ≤ 3
    · obtain ⟨r, hr⟩ := Option.ne_none_iff_exists'.mp (h hu)
      simp [fixAlbumUrl, albumTryBody, hu, hr, clientCheck, not_le.mpr hc]
    · simp [fixAlbumUrl, albumTryBody, hu, clientCheck, not_le.mpr hc]

/-- Witness for `imgur_album_resolution_spec`: a fully successful
response with client quota 7 aborts the run. -/
theorem imgur_album_resolution_spec_witness :
    fixAlbumUrl (.success (some "https://i.imgur.com/ok.jpg")
      ⟨some 100, some 0, some 7⟩) = .abortRun :=
  imgur_album_resolution_spec.2.2.2.2.2.1 "https://i.imgur.com/ok.jpg"
    100 (some 0) 7 (by decide) (by decide)

/-- Claim C7, counterexample. A response whose body is malformed while its
client-remaining header reads 100 (≤ 500): the extraction raises before
the quota check is reached, the handler substitutes the sentinel, and
the run does **not** abort — contradicting the claim that a quota ≤ 500
always aborts immediately. -/
theorem imgur_album_low_quota_not_aborted :
    fixAlbumUrl (.success none ⟨some 1000, some 0, some 100⟩) =
      .continueWith removedSentinel ∧
    (100 : Int) ≤ 500 ∧
    fixAlbumUrl (.success none ⟨some 1000, some 0, some 100⟩) ≠ .abortRun := by
  decide

/-- Claim C5. Each of the three filter stages, invoked on a store whose
`info` already contains that stage's marker, exits immediately
(`sys.exit(0)`) without producing a modified store and without writing
the file. -/
theorem filter_already_filtered_guard :
    (∀ (blockwords : List String) (s : Store), s.info.word_filter.isSome = true →
      filter_words blockwords s = .alreadyFiltered) ∧
    (∀ (dir : String) (onDisk : String → Bool) (detect : String → NsfwPred)
      (thr : ℚ) (s : Store), s.info.nsfw_filter.isSome = true →
      filter_nsfw dir onDisk detect thr s = .alreadyFiltered) ∧
    (∀ (dir : String) (onDisk : String → Bool) (numBoxes : String → Nat)
      (thr : ℚ) (s : Store), s.info.face_filter.isSome = true →
      filter_faces dir onDisk numBoxes thr s = .alreadyFiltered) := by
  refine ⟨?_, ?_, ?_⟩
  · intro bw s h
    simp [filter_words, h]
  · intro dir od det thr s h
    simp [filter_nsfw, h]
  · intro dir od nb thr s h
    simp [filter_faces, h]

/-- Witness for `filter_already_filtered_guard` on a concrete store that
carries all three markers. -/
theorem filter_already_filtered_guard_witness :
    filter_words [] exFilteredStore = .alreadyFiltered ∧
    filter_nsfw "imgs" (fun _ => false) (fun _ => ⟨0, 0, 1, 0, 0⟩) (9/10)
      exFilteredStore = .alreadyFiltered ∧
    filter_faces "imgs" (fun _ => false) (fun _ => 0) (9/10)
      exFilteredStore = .alreadyFiltered :=
  ⟨filter_already_filtered_guard.1 [] exFilteredStore rfl,
   filter_already_filtered_guard.2.1 "imgs" (fun _ => false)
     (fun _ => ⟨0, 0, 1, 0, 0⟩) (9/10) exFilteredStore rfl,
   filter_already_filtered_guard.2.2 "imgs" (fun _ => false)
     (fun _ => 0) (9/10) exFilteredStore rfl⟩

/-- Claim C10. The merged file's `info.version` is always the merging
program's own `redcaps.__version__` (passed here as `version`),
whatever version strings the inputs carry. -/
theorem merge_version_is_current (version : String) (stores : List Store)
    (delete_old : Bool) (m : Store)
    (h : merge version stores delete_old = .wrote m) :
    m.info.version = version := by
  rcases stores with _ | ⟨s0, _ | ⟨s1, rest⟩⟩
  · simp [merge] at h
  · simp [merge] at h
  · rw [merge] at h
    split at h
    · exact absurd h (by simp)
    · injection h with h'
      rw [← h']

/-- Witness for `merge_version_is_current` on two concrete stores. -/
theorem merge_version_is_current_witness :
    ∃ m, merge "v1" [exStoreA, exStoreB] false = .wrote m ∧
      m.info.version = "v1" :=
  ⟨_, rfl, merge_version_is_current "v1" [exStoreA, exStoreB] false _ rfl⟩

/-- The `datetime` order on dates is reflexive. -/
theorem Date.le_rfl (a : Date) : Date.le a a := by
  unfold Date.le; omega

/-- The `datetime` order on dates is total. -/
theorem Date.le_total (a b : Date) : Date.le a b ∨ Date.le b a := by
  unfold Date.le; omega

/-- The `datetime` order on dates is transitive. -/
theorem Date.le_trans {a b c : Date} (h1 : Date.le a b) (h2 : Date.le b c) :
    Date.le a c := by
  unfold Date.le at h1 h2 ⊢; omega

/-- The value `dateMin` never exceeds its left argument. -/
theorem dateMin_le_left (a b : Date) : Date.le (dateMin a b) a := by
  unfold dateMin
  by_cases hab : Date.le a b
  · rw [if_pos hab]; exact Date.le_rfl a
  · rw [if_neg hab]
    rcases Date.le_total a b with h | h
    · exact absurd h hab
    · exact h

/-- The value `dateMin` never exceeds its right argument. -/
theorem dateMin_le_right (a b : Date) : Date.le (dateMin a b) b := by
  unfold dateMin
  by_cases hab : Date.le a b
  · rw [if_pos hab]; exact hab
  · rw [if_neg hab]; exact Date.le_rfl b

/-- The value `dateMin` is one of its arguments. -/
theorem dateMin_eq_or (a b : Date) : dateMin a b = a ∨ dateMin a b = b := by
  unfold dateMin
  by_cases hab : Date.le a b
  · rw [if_pos hab]; left; rfl
  · rw [if_neg hab]; right; rfl

/-- The value `dateMax` is at least its left argument. -/
theorem dateMax_ge_left (a b : Date) : Date.le a (dateMax a b) := by
  unfold dateMax
  by_cases hba : Date.le b a
  · rw [if_pos hba]; exact Date.le_rfl a
  · rw [if_neg hba]
    rcases Date.le_total a b with h | h
    · exact h
    · exact absurd h hba

/-- The value `dateMax` is at least its right argument. -/
theorem dateMax_ge_right (a b : Date) : Date.le b (dateMax a b) := by
  unfold dateMax
  by_cases hba : Date.le b a
  · rw [if_pos hba]; exact hba
  · rw [if_neg hba]; exact Date.le_rfl b

/-- The value `dateMax` is one of its arguments. -/
theorem dateMax_eq_or (a b : Date) : dateMax a b = a ∨ dateMax a b = b := by
  unfold dateMax
  by_cases hba : Date.le b a
  · rw [if_pos hba]; left; rfl
  · rw [if_neg hba]; right; rfl

/-- The running Python `min` never exceeds its initial value. -/
theorem foldl_dateMin_le_init (l : List Date) (a : Date) :
    Date.le (l.foldl dateMin a) a := by
  induction l generalizing a with
  | nil => exact Date.le_rfl a
  | cons b t ih =>
    exact Date.le_trans (ih (dateMin a b)) (dateMin_le_left a b)

/-- The running Python `min` is the initial value or a list element. -/
theorem foldl_dateMin_mem (l : List Date) (a : Date) :
    l.foldl dateMin a = a ∨ l.foldl dateMin a ∈ l := by
  induction l generalizing a with
  | nil => left; rfl
  | cons b t ih =>
    rcases ih (dateMin a b) with h | h
    · rw [List.foldl_cons, h]
      rcases dateMin_eq_or a b with h' | h'
      · left; exact h'
      · right; rw [h']; exact List.mem_cons_self b t
    · right; exact List.mem_cons_of_mem b h

/-- The running Python `min` is a lower bound of the list. -/
theorem foldl_dateMin_le_mem (l : List Date) :
    ∀ (a x : Date), x ∈ l → Date.le (l.foldl dateMin a) x := by
  induction l with
  | nil => intro a x hx; cases hx
  | cons b t ih =>
    intro a x hx
    rcases List.mem_cons.mp hx with rfl | hx'
    · exact Date.le_trans (foldl_dateMin_le_init t (dateMin a x)) (dateMin_le_right a x)
    · exact ih (dateMin a b) x hx'

/-- The running Python `max` is at least its initial value. -/
theorem foldl_dateMax_ge_init (l : List Date) (a : Date) :
    Date.le a (l.foldl dateMax a) := by
  induction l generalizing a with
  | nil => exact Date.le_rfl a
  | cons b t ih =>
    exact Date.le_trans (dateMax_ge_left a b) (ih (dateMax a b))

/-- The running Python `max` is the initial value or a list element. -/
theorem foldl_dateMax_mem (l : List Date) (a : Date) :
    l.foldl dateMax a = a ∨ l.foldl dateMax a ∈ l := by
  induction l generalizing a with
  | nil => left; rfl
  | cons b t ih =>
    rcases ih (dateMax a b) with h | h
    · rw [List.foldl_cons, h]
      rcases dateMax_eq_or a b with h' | h'
      · left; exact h'
      · right; rw [h']; exact List.mem_cons_self b t
    · right; exact List.mem_cons_of_mem b h

/-- The running Python `max` is an upper bound of the list. -/
theorem foldl_dateMax_ge_mem (l : List Date) :
    ∀ (a x : Date), x ∈ l → Date.le x (l.foldl dateMax a) := by
  induction l with
  | nil => intro a x hx; cases hx
  | cons b t ih =>
    intro a x hx
    rcases List.mem_cons.mp hx with rfl | hx'
    · exact Date.le_trans (dateMax_ge_right a x) (foldl_dateMax_ge_init t (dateMax a x))
    · exact ih (dateMax a b) x hx'

/-- Claim C6. `merge` with fewer than two input files is a no-op (a warning
and no write); with at least two, the merged header's `start_date` is
the minimum of all inputs' start dates and its `end_date` the maximum of
all inputs' end dates (each is an input date bounding all the others). -/
theorem merge_requires_two_and_bounds_dates :
    (∀ (version : String) (stores : List Store) (delete_old : Bool),
      stores.length < 2 → merge version stores delete_old = .noop) ∧
    (∀ (version : String) (stores : List Store) (delete_old : Bool) (m : Store),
      merge version stores delete_old = .wrote m →
      (m.info.start_date ∈ stores.map (fun s => s.info.start_date) ∧
        ∀ x ∈ stores.map (fun s => s.info.start_date), Date.le m.info.start_date x) ∧
      (m.info.end_date ∈ stores.map (fun s => s.info.end_date) ∧
        ∀ x ∈ stores.map (fun s => s.info.end_date), Date.le x m.info.end_date)) := by
  constructor
  · intro version stores delete_old hlen
    rcases stores with _ | ⟨s0, _ | ⟨s1, rest⟩⟩
    · rfl
    · rfl
    · exact absurd hlen (by simp)
  · intro version stores delete_old m h
    rcases stores with _ | ⟨s0, _ | ⟨s1, rest⟩⟩
    · simp [merge] at h
    · simp [merge] at h
    · rw [merge] at h
      split at h
      · exact absurd h (by simp)
      · injection h with h'
        rw [← h']
        refine ⟨⟨?_, ?_⟩, ?_, ?_⟩
        · rcases foldl_dateMin_mem ((s1 :: rest).map (fun s => s.info.start_date))
            s0.info.start_date with hm | hm
          · rw [hm]; exact List.mem_cons_self _ _
          · exact List.mem_cons_of_mem _ hm
        · intro x hx
          rcases List.mem_cons.mp hx with rfl | hx'
          · exact foldl_dateMin_le_init _ _
          · exact foldl_dateMin_le_mem _ _ x hx'
        · rcases foldl_dateMax_mem ((s1 :: rest).map (fun s => s.info.end_date))
            s0.info.end_date with hm | hm
          · rw [hm]; exact List.mem_cons_self _ _
          · exact List.mem_cons_of_mem _ hm
        · intro x hx
          rcases List.mem_cons.mp hx with rfl | hx'
          · exact foldl_dateMax_ge_init _ _
          · exact foldl_dateMax_ge_mem _ _ x hx'

/-- Witness for `merge_requires_two_and_bounds_dates`: a single-file
merge is a no-op. -/
theorem merge_requires_two_witness :
    merge "v1" [exStoreA] true = .noop :=
  merge_requires_two_and_bounds_dates.1 "v1" [exStoreA] true (by decide)

/-- Claim C9. Sanitizing the caption
`"My Cat [1920x1080] (reupload) @john_doe"` yields `"my cat <usr>"`. -/
theorem sanitize_scenario :
    sanitizeCaption "My Cat [1920x1080] (reupload) @john_doe" = "my cat <usr>" := by
  decide

end Redcaps
